import Mathlib

/-!
Verification of the path-rewriting engines of the Cyb3Raya-Blog repository.

Engine 1 (`src/fix_pages_paths.py`): `is_external`, `normalize_root_path`,
and the regex-driven `rewrite_text` over attribute values and CSS url()
tokens.

Engine 2 (`src/fix_paths.py`): `apply_replacements`, a literal
prefix-stripping rewriter.

Strings are modelled as `List Char`; Python string operations (`strip`,
`lower`, `startswith`, `replace`, `split`, `re.sub` for the two fixed
patterns) are embedded as executable functions below.
-/

/-- The whitespace test used by Python's `str.strip()` / `str.isspace()`
(Unicode whitespace code points). -/
def isPySpace (c : Char) : Bool :=
  let n := c.toNat
  n == 32 || (9 ≤ n && n ≤ 13) || (28 ≤ n && n ≤ 31) || n == 133 || n == 160 ||
    n == 5760 || (8192 ≤ n && n ≤ 8202) || n == 8232 || n == 8233 || n == 8239 ||
    n == 8287 || n == 12288

/-- Python `str.strip()`: drop whitespace from both ends (trailing first,
then leading; the order is immaterial). -/
def pyStrip (s : List Char) : List Char :=
  List.dropWhile isPySpace ((List.dropWhile isPySpace s.reverse).reverse)

/-- Python `str.lower()` on one character (ASCII letters; the scheme
keywords compared against are all ASCII). -/
def lowerChar (c : Char) : Char :=
  if 65 ≤ c.toNat ∧ c.toNat ≤ 90 then Char.ofNat (c.toNat + 32) else c

/-- Python `str.lower()`. -/
def lowerStr (s : List Char) : List Char := s.map lowerChar

/-- `is_external` from `src/fix_pages_paths.py` (lines 41-53): strip, lower,
then test the eight external prefixes. -/
def is_external (url : List Char) : Bool :=
  let low := lowerStr (pyStrip url)
  "http://".data.isPrefixOf low || "https://".data.isPrefixOf low ||
    "mailto:".data.isPrefixOf low || "tel:".data.isPrefixOf low ||
    "data:".data.isPrefixOf low || "javascript:".data.isPrefixOf low ||
    "//".data.isPrefixOf low || "#".data.isPrefixOf low

/-- The anchored substitution
`re.sub(rf"^/{re.escape(repo)}/Cyb3Raya(?=/|$)", f"/{repo}", p)`
from `src/fix_pages_paths.py` line 71.  The pattern matches at the start of
`p` only; the lookahead accepts a following `/`, the end of the string, or
(Python `$`) a sole trailing newline. -/
def dedupRepo (repo p : List Char) : List Char :=
  if (('/' :: repo) ++ "/Cyb3Raya".data).isPrefixOf p &&
      (List.drop (('/' :: repo) ++ "/Cyb3Raya".data).length p == [] ||
       "/".data.isPrefixOf (List.drop (('/' :: repo) ++ "/Cyb3Raya".data).length p) ||
       List.drop (('/' :: repo) ++ "/Cyb3Raya".data).length p == ['\n']) then
    ('/' :: repo) ++ List.drop (('/' :: repo) ++ "/Cyb3Raya".data).length p
  else p

/-- The three rewrite branches of `normalize_root_path`
(`src/fix_pages_paths.py` lines 67-82), applied to the stripped,
root-absolute, non-external path `p`. -/
def normCore (p repo : List Char) : List Char :=
  if p == ('/' :: repo) || (('/' :: repo) ++ "/".data).isPrefixOf p then
    dedupRepo repo p
  else if p == "/Cyb3Raya".data || "/Cyb3Raya/".data.isPrefixOf p then
    (if List.drop 9 p == [] then ('/' :: repo) ++ "/".data else ('/' :: repo) ++ List.drop 9 p)
  else ('/' :: repo) ++ p

/-- `normalize_root_path` from `src/fix_pages_paths.py` (lines 56-82). -/
def normalize_root_path (path repo : List Char) : List Char :=
  let p := pyStrip path
  if !("/".data.isPrefixOf p) then path
  else if is_external p then path
  else normCore p repo

/-- First half of the prefix normalization inside `apply_replacements`
(`src/fix_paths.py` lines 81-82): prepend `/` when missing. -/
def normSlashA (pfx : List Char) : List Char :=
  if "/".data.isPrefixOf pfx then pfx else '/' :: pfx

/-- Prefix normalization inside `apply_replacements`
(`src/fix_paths.py` lines 79-84): ensure the prefix starts and ends
with `/`. -/
def normSlash (pfx : List Char) : List Char :=
  if (normSlashA pfx).getLast? == some '/' then normSlashA pfx
  else normSlashA pfx ++ "/".data

/-- Python `str.replace(pat, rep)` for a non-empty `pat`: scan left to
right, replacing non-overlapping occurrences.  `fuel` bounds the
recursion; callers pass the length of the scanned list. -/
def replaceAllF (pat rep : List Char) : Nat → List Char → List Char
  | _, [] => []
  | 0, s => s
  | fuel + 1, c :: rest =>
    if !pat.isEmpty && pat.isPrefixOf (c :: rest) then
      rep ++ replaceAllF pat rep fuel (List.drop pat.length (c :: rest))
    else
      c :: replaceAllF pat rep fuel rest

/-- Python `str.replace` (non-empty pattern). -/
def replaceAll (pat rep s : List Char) : List Char := replaceAllF pat rep s.length s

/-- Extend the first segment of a split result with one leading
character. -/
def consHead (c : Char) : List (List Char) → List (List Char)
  | [] => [[c]]
  | seg :: segs => (c :: seg) :: segs

/-- Python `str.split(pat)` for a non-empty `pat`: the same left-to-right
non-overlapping scan as `replaceAllF`, returning the segments between
occurrences. -/
def pySplitF (pat : List Char) : Nat → List Char → List (List Char)
  | _, [] => [[]]
  | 0, s => [s]
  | fuel + 1, c :: rest =>
    if !pat.isEmpty && pat.isPrefixOf (c :: rest) then
      [] :: pySplitF pat fuel (List.drop pat.length (c :: rest))
    else
      consHead c (pySplitF pat fuel rest)

/-- Python `str.split` (non-empty pattern). -/
def pySplit (pat s : List Char) : List (List Char) := pySplitF pat s.length s

/-- Join segments with a separator (`sep.join(segs)`). -/
def joinWith (sep : List Char) : List (List Char) → List Char
  | [] => []
  | [seg] => seg
  | seg :: seg2 :: segs => seg ++ sep ++ joinWith sep (seg2 :: segs)

/-- Does `pat` occur as a contiguous sublist of `s`? -/
def occursIn (pat : List Char) : List Char → Bool
  | [] => pat.isEmpty
  | c :: rest => pat.isPrefixOf (c :: rest) || occursIn pat rest

/-- `apply_replacements` from `src/fix_paths.py` (lines 67-95): for each
prefix in order, skip it if empty, otherwise normalize it to be
slash-delimited, replace every occurrence of it by `/`, and add
`max 0 (len(before.split(p)) - 1)` (computed on the pre-replacement text)
to the running count.  The per-prefix loop body is embedded as structural
recursion over the prefix list. -/
def apply_replacements (content : List Char) : List (List Char) → List Char × Nat
  | [] => (content, 0)
  | pfx :: rest =>
    if pfx.isEmpty then apply_replacements content rest
    else
      let p := normSlash pfx
      let newContent := replaceAll p "/".data content
      let n := (pySplit p content).length - 1
      let next := apply_replacements newContent rest
      (next.1, n + next.2)

/-- The double-quote character (written via its code point). -/
def dquote : Char := Char.ofNat 34

/-- The single-quote character (written via its code point). -/
def squote : Char := Char.ofNat 39

/-- The quote class `["']` of the two compiled patterns. -/
def isQuote (c : Char) : Bool := c == dquote || c == squote

/-- Word characters for the `\b` boundary of the compiled patterns
(Python `\w`; ASCII letters, digits and underscore — non-ASCII word
characters are not used by the repository's data). -/
def isWordChar (c : Char) : Bool := c.isAlphanum || c == '_'

/-- Case-insensitive literal match of the lowercase keyword `kw` at the
head of `s` (re.IGNORECASE). -/
def matchCI (kw s : List Char) : Bool := lowerStr (s.take kw.length) == kw

/-- The part of `ATTR_PATTERN` after the keyword:
`\s*=\s*["'] [^"']* ["']`.  On success returns the rest of the `prefix`
group (whitespace, `=`, whitespace, opening quote), the `path` group, the
`suffix` group (the closing quote) and the remaining input. -/
def attrTail (r1 : List Char) : Option (List Char × List Char × List Char × List Char) :=
  match List.dropWhile isPySpace r1 with
  | '=' :: r3 =>
    (match List.dropWhile isPySpace r3 with
     | q1 :: r5 =>
       if isQuote q1 then
         (match List.dropWhile (fun c => !isQuote c) r5 with
          | q2 :: r7 =>
            some (List.takeWhile isPySpace r1 ++ '=' :: List.takeWhile isPySpace r3 ++ [q1],
              List.takeWhile (fun c => !isQuote c) r5, [q2], r7)
          | [] => none)
       else none
     | [] => none)
  | _ => none

/-- One attempt of `ATTR_PATTERN`
(`\b(?:href|src|action)\s*=\s*["'] [^"']* ["']`, IGNORECASE) at the head
of `s` (the `\b` test is done by the caller).  On success returns the
`prefix` group text, the `path` group, the `suffix` group and the
remaining input. -/
def tryAttrAt (s : List Char) : Option (List Char × List Char × List Char × List Char) :=
  if matchCI "href".data s then
    (match attrTail (s.drop 4) with
     | some (mid, path, suf, rest) => some (s.take 4 ++ mid, path, suf, rest)
     | none => none)
  else if matchCI "src".data s then
    (match attrTail (s.drop 3) with
     | some (mid, path, suf, rest) => some (s.take 3 ++ mid, path, suf, rest)
     | none => none)
  else if matchCI "action".data s then
    (match attrTail (s.drop 6) with
     | some (mid, path, suf, rest) => some (s.take 6 ++ mid, path, suf, rest)
     | none => none)
  else none

/-- The part of `CSS_URL_PATTERN` after the optional opening quote:
`[^)"']* ["']?\s*\)`.  Returns the `path` group, the `suffix` group
(optional quote, whitespace, `)`) and the remaining input. -/
def cssAfterQuote (r3 : List Char) : Option (List Char × List Char × List Char) :=
  match List.dropWhile (fun c => !isQuote c && c != ')') r3 with
  | c :: rest =>
    if c == ')' then
      some (List.takeWhile (fun c => !isQuote c && c != ')') r3, [')'], rest)
    else
      (match List.dropWhile isPySpace rest with
       | ')' :: r6 =>
         some (List.takeWhile (fun c => !isQuote c && c != ')') r3,
           c :: List.takeWhile isPySpace rest ++ [')'], r6)
       | _ => none)
  | [] => none

/-- The part of `CSS_URL_PATTERN` after `url(`: `\s*["']? [^)"']* ["']?\s*\)`.
On success returns the rest of the `prefix` group (whitespace and the
optional opening quote), the `path` group, the `suffix` group and the
remaining input. -/
def cssTail (r1 : List Char) : Option (List Char × List Char × List Char × List Char) :=
  match List.dropWhile isPySpace r1 with
  | [] => none
  | q :: r2 =>
    if isQuote q then
      (match cssAfterQuote r2 with
       | some (path, suf, rest) =>
         some (List.takeWhile isPySpace r1 ++ [q], path, suf, rest)
       | none => none)
    else
      (match cssAfterQuote (q :: r2) with
       | some (path, suf, rest) => some (List.takeWhile isPySpace r1, path, suf, rest)
       | none => none)

/-- One attempt of `CSS_URL_PATTERN`
(`\burl\(\s*["']? [^)"']* ["']?\s*\)`, IGNORECASE) at the head of `s`
(the `\b` test is done by the caller).  Greedy quantifier semantics:
whenever the greedy choice admits an overall match the regex engine keeps
it, and when it does not no backtracked alternative does either, so the
scan is deterministic. -/
def tryCssAt (s : List Char) : Option (List Char × List Char × List Char × List Char) :=
  if matchCI "url(".data s then
    (match cssTail (s.drop 4) with
     | some (mid, path, suf, rest) => some (s.take 4 ++ mid, path, suf, rest)
     | none => none)
  else none

/-- The body shared by `repl_attr` and `repl_css`
(`src/fix_pages_paths.py` lines 88-106): transform the captured path when
its stripped form starts with `/`, otherwise keep it. -/
def replPath (repo old : List Char) : List Char :=
  if "/".data.isPrefixOf (pyStrip old) then normalize_root_path old repo else old

/-- The replacement for one match together with its contribution to the
change count (`count += 1` exactly when the new path differs). -/
def matchStep (repo old : List Char) : List Char × Nat :=
  (replPath repo old, if replPath repo old == old then 0 else 1)

/-- The common structure of `re.sub` for the two compiled patterns: scan
left to right; at each position whose preceding character is not a word
character (`\b`) run one match attempt, replace the match through
`matchStep` (the scan resumes right after it; the character before the
resume point is a closing quote or `)`, never a word character) and
accumulate the count.  `fuel` bounds the recursion; callers pass the
length of the scanned list. -/
def scanSub (tryAt : List Char → Option (List Char × List Char × List Char × List Char))
    (repo : List Char) : Nat → List Char → Bool → List Char × Nat
  | 0, s, _ => (s, 0)
  | _ + 1, [], _ => ([], 0)
  | fuel + 1, c :: rest, prevW =>
    if prevW then
      let r := scanSub tryAt repo fuel rest (isWordChar c)
      (c :: r.1, r.2)
    else
      match tryAt (c :: rest) with
      | some (pre, path, suf, after) =>
        let st := matchStep repo path
        let r := scanSub tryAt repo fuel after false
        (pre ++ st.1 ++ suf ++ r.1, st.2 + r.2)
      | none =>
        let r := scanSub tryAt repo fuel rest (isWordChar c)
        (c :: r.1, r.2)

/-- `ATTR_PATTERN.sub(repl_attr, ·)` (`src/fix_pages_paths.py` line 108). -/
def attrScanF (repo : List Char) (fuel : Nat) (s : List Char) (prevW : Bool) : List Char × Nat :=
  scanSub tryAttrAt repo fuel s prevW

/-- `CSS_URL_PATTERN.sub(repl_css, ·)` (`src/fix_pages_paths.py` line 109). -/
def cssScanF (repo : List Char) (fuel : Nat) (s : List Char) (prevW : Bool) : List Char × Nat :=
  scanSub tryCssAt repo fuel s prevW

/-- `rewrite_text` from `src/fix_pages_paths.py` (lines 85-110): the
attribute pass over the text, then the CSS url() pass over its output,
with the change counts added. -/
def rewrite_text (text repo : List Char) : List Char × Nat :=
  let a := attrScanF repo text.length text false
  let b := cssScanF repo a.1.length a.1 false
  (b.1, a.2 + b.2)

/-- `s` begins with the path segment `pre`: it is exactly `pre` or
continues with `/` right after it. -/
def startsWithSeg (pre s : List Char) : Bool :=
  s == pre || (pre ++ "/".data).isPrefixOf s

theorem char_ofNat_valid_toNat (n : Nat) (h : n.isValidChar) : (Char.ofNat n).toNat = n := by
  unfold Char.ofNat
  rw [dif_pos h]
  rfl

theorem lowerChar_eq_slash {c : Char} : lowerChar c = '/' ↔ c = '/' := by
  constructor
  · intro h
    unfold lowerChar at h
    split at h
    · exfalso
      have hv : (c.toNat + 32).isValidChar := by
        left
        omega
      have h2 := char_ofNat_valid_toNat (c.toNat + 32) hv
      rw [h] at h2
      rw [show ('/' : Char).toNat = 47 from rfl] at h2
      omega
    · exact h
  · intro h
    subst h
    decide

theorem head?_dropWhile_false {P : Char → Bool} {l : List Char} {c : Char}
    (h : (List.dropWhile P l).head? = some c) : P c = false := by
  induction l with
  | nil => simp [List.dropWhile] at h
  | cons a t ih =>
    rw [List.dropWhile_cons] at h
    split at h
    · exact ih h
    · simp at h
      subst h
      simp_all

theorem dropWhile_eq_self_of_head {P : Char → Bool} {l : List Char}
    (h : ∀ c, l.head? = some c → P c = false) : List.dropWhile P l = l := by
  cases l with
  | nil => rfl
  | cons a t =>
    rw [List.dropWhile_cons]
    simp [h a rfl]

theorem getLast?_append_ne {l₁ l₂ : List Char} (h : l₂ ≠ []) :
    (l₁ ++ l₂).getLast? = l₂.getLast? := by
  rw [List.getLast?_append]
  cases h2 : l₂.getLast? with
  | none => exact absurd (List.getLast?_eq_none_iff.mp h2) h
  | some x => rfl

theorem getLast?_dropWhile_ne_nil {P : Char → Bool} {l : List Char}
    (h : List.dropWhile P l ≠ []) :
    (List.dropWhile P l).getLast? = l.getLast? := by
  conv_rhs => rw [← List.takeWhile_append_dropWhile P l]
  rw [getLast?_append_ne h]

theorem pyStrip_head {s : List Char} {c : Char} (h : (pyStrip s).head? = some c) :
    isPySpace c = false :=
  head?_dropWhile_false h

theorem pyStrip_getLast {s : List Char} {c : Char} (h : (pyStrip s).getLast? = some c) :
    isPySpace c = false := by
  unfold pyStrip at h
  have hne : List.dropWhile isPySpace (List.dropWhile isPySpace s.reverse).reverse ≠ [] := by
    intro he
    rw [he] at h
    simp at h
  rw [getLast?_dropWhile_ne_nil hne, List.getLast?_reverse] at h
  exact head?_dropWhile_false h

theorem pyStrip_eq_self_of {s : List Char}
    (h1 : ∀ c, s.head? = some c → isPySpace c = false)
    (h2 : ∀ c, s.getLast? = some c → isPySpace c = false) : pyStrip s = s := by
  unfold pyStrip
  have hrev : List.dropWhile isPySpace s.reverse = s.reverse := by
    apply dropWhile_eq_self_of_head
    intro c hc
    rw [List.head?_reverse] at hc
    exact h2 c hc
  rw [hrev, List.reverse_reverse]
  exact dropWhile_eq_self_of_head h1

theorem pyStrip_idem (s : List Char) : pyStrip (pyStrip s) = pyStrip s :=
  pyStrip_eq_self_of (fun _ hc => pyStrip_head hc) (fun _ hc => pyStrip_getLast hc)

theorem stripped_head {s : List Char} {c : Char} (hs : pyStrip s = s)
    (h : s.head? = some c) : isPySpace c = false := by
  rw [← hs] at h
  exact pyStrip_head h

theorem stripped_getLast {s : List Char} {c : Char} (hs : pyStrip s = s)
    (h : s.getLast? = some c) : isPySpace c = false := by
  rw [← hs] at h
  exact pyStrip_getLast h

theorem isPrefixOf_eq_append {a s : List Char} (h : a.isPrefixOf s = true) :
    s = a ++ List.drop a.length s := by
  have := List.isPrefixOf_iff_prefix.mp h
  exact (List.prefix_iff_eq_append.mp this).symm

theorem isPrefixOf_cancel (a b c : List Char) :
    (a ++ b).isPrefixOf (a ++ c) = b.isPrefixOf c := by
  cases hb : b.isPrefixOf c with
  | true =>
    apply List.isPrefixOf_iff_prefix.mpr
    exact (List.prefix_append_right_inj a).mpr (List.isPrefixOf_iff_prefix.mp hb)
  | false =>
    by_contra hne
    have ht : (a ++ b).isPrefixOf (a ++ c) = true := by
      cases h : (a ++ b).isPrefixOf (a ++ c) with
      | true => rfl
      | false => exact absurd h (by simp_all)
    have := (List.prefix_append_right_inj a).mp (List.isPrefixOf_iff_prefix.mp ht)
    rw [List.isPrefixOf_iff_prefix.mpr this] at hb
    exact Bool.true_eq_false.mp hb

theorem slash_pref_iff (s : List Char) :
    "/".data.isPrefixOf s = true ↔ ∃ t, s = '/' :: t := by
  rw [List.isPrefixOf_iff_prefix]
  constructor
  · intro h
    obtain ⟨t, ht⟩ := h
    exact ⟨t, ht.symm⟩
  · intro ⟨t, ht⟩
    subst ht
    exact ⟨t, rfl⟩

theorem isPrefixOf_cons_ne {a b : Char} {as bs : List Char} (h : a ≠ b) :
    (a :: as).isPrefixOf (b :: bs) = false := by
  simp [List.isPrefixOf, h]

theorem lowerStr_cons (c : Char) (t : List Char) :
    lowerStr (c :: t) = lowerChar c :: lowerStr t := rfl

theorem slash_pref_lowerStr (t : List Char) :
    "/".data.isPrefixOf (lowerStr t) = "/".data.isPrefixOf t := by
  cases t with
  | nil => rfl
  | cons c u =>
    rw [lowerStr_cons]
    by_cases hc : c = '/'
    · subst hc
      rw [show lowerChar '/' = '/' from by decide]
      simp [List.isPrefixOf]
    · have hlc : lowerChar c ≠ '/' := fun he => hc (lowerChar_eq_slash.mp he)
      rw [show "/".data = ['/'] from rfl]
      rw [show ((['/'] : List Char).isPrefixOf (lowerChar c :: lowerStr u)) =
        (('/' :: []).isPrefixOf (lowerChar c :: lowerStr u)) from rfl]
      rw [isPrefixOf_cons_ne (Ne.symm hlc), isPrefixOf_cons_ne (Ne.symm hc)]

theorem is_external_slash {t : List Char} (hstrip : pyStrip ('/' :: t) = '/' :: t) :
    is_external ('/' :: t) = "/".data.isPrefixOf t := by
  have hl : lowerStr (pyStrip ('/' :: t)) = '/' :: lowerStr t := by
    rw [hstrip, lowerStr_cons, show lowerChar '/' = '/' from by decide]
  have h1 : "http://".data.isPrefixOf ('/' :: lowerStr t) = false := by
    rw [show "http://".data = 'h' :: "ttp://".data from rfl]
    exact isPrefixOf_cons_ne (by decide)
  have h2 : "https://".data.isPrefixOf ('/' :: lowerStr t) = false := by
    rw [show "https://".data = 'h' :: "ttps://".data from rfl]
    exact isPrefixOf_cons_ne (by decide)
  have h3 : "mailto:".data.isPrefixOf ('/' :: lowerStr t) = false := by
    rw [show "mailto:".data = 'm' :: "ailto:".data from rfl]
    exact isPrefixOf_cons_ne (by decide)
  have h4 : "tel:".data.isPrefixOf ('/' :: lowerStr t) = false := by
    rw [show "tel:".data = 't' :: "el:".data from rfl]
    exact isPrefixOf_cons_ne (by decide)
  have h5 : "data:".data.isPrefixOf ('/' :: lowerStr t) = false := by
    rw [show "data:".data = 'd' :: "ata:".data from rfl]
    exact isPrefixOf_cons_ne (by decide)
  have h6 : "javascript:".data.isPrefixOf ('/' :: lowerStr t) = false := by
    rw [show "javascript:".data = 'j' :: "avascript:".data from rfl]
    exact isPrefixOf_cons_ne (by decide)
  have h8 : "#".data.isPrefixOf ('/' :: lowerStr t) = false := by
    rw [show "#".data = '#' :: [] from rfl]
    exact isPrefixOf_cons_ne (by decide)
  have h7 : "//".data.isPrefixOf ('/' :: lowerStr t) = "/".data.isPrefixOf t := by
    rw [show "//".data = '/' :: "/".data from rfl]
    rw [show (('/' :: "/".data).isPrefixOf ('/' :: lowerStr t)) =
      ("/".data.isPrefixOf (lowerStr t)) from by simp [List.isPrefixOf]]
    exact slash_pref_lowerStr t
  unfold is_external
  simp only [hl, h1, h2, h3, h4, h5, h6, h7, h8, Bool.false_or, Bool.or_false]

theorem is_external_strip (u : List Char) : is_external (pyStrip u) = is_external u := by
  unfold is_external
  rw [pyStrip_idem]

theorem normalize_not_root {path repo : List Char}
    (h : "/".data.isPrefixOf (pyStrip path) = false) :
    normalize_root_path path repo = path := by
  simp [normalize_root_path, h]

theorem normalize_external {path repo : List Char}
    (h : is_external (pyStrip path) = true) :
    normalize_root_path path repo = path := by
  by_cases hr : "/".data.isPrefixOf (pyStrip path) = true <;>
    simp_all [normalize_root_path]

theorem normalize_eq_core {path repo : List Char}
    (h1 : "/".data.isPrefixOf (pyStrip path) = true)
    (h2 : is_external (pyStrip path) = false) :
    normalize_root_path path repo = normCore (pyStrip path) repo := by
  simp [normalize_root_path, h1, h2]


theorem bool_ne_true {b : Bool} (h : b = false) : ¬ b = true := by
  rw [h]
  exact fun hc => Bool.noConfusion hc

theorem isPrefixOf_append_self (a t : List Char) : a.isPrefixOf (a ++ t) = true :=
  List.isPrefixOf_iff_prefix.mpr ⟨t, rfl⟩

theorem isPrefixOf_refl (a : List Char) : a.isPrefixOf a = true := by
  have h := isPrefixOf_append_self a []
  rwa [List.append_nil] at h

theorem slash_pref_cons (t : List Char) : "/".data.isPrefixOf ('/' :: t) = true := by
  simp [List.isPrefixOf]

theorem normCore_good {p repo : List Char}
    (h : p = ('/' :: repo) ∨ (('/' :: repo) ++ "/".data).isPrefixOf p = true) :
    normCore p repo = dedupRepo repo p := by
  have hb : (p == ('/' :: repo) || (('/' :: repo) ++ "/".data).isPrefixOf p) = true := by
    rcases h with h | h
    · rw [h, beq_self_eq_true, Bool.true_or]
    · rw [h, Bool.or_true]
  unfold normCore
  rw [if_pos hb]

theorem normCore_legacy {p repo : List Char}
    (hng : ¬ (p = ('/' :: repo) ∨ (('/' :: repo) ++ "/".data).isPrefixOf p = true))
    (hleg : p = "/Cyb3Raya".data ∨ "/Cyb3Raya/".data.isPrefixOf p = true) :
    normCore p repo =
      (if List.drop 9 p = [] then ('/' :: repo) ++ "/".data
       else ('/' :: repo) ++ List.drop 9 p) := by
  have hb1 : (p == ('/' :: repo) || (('/' :: repo) ++ "/".data).isPrefixOf p) = false := by
    cases hv : (p == ('/' :: repo)) with
    | true => exact absurd (Or.inl (beq_iff_eq.mp hv)) hng
    | false =>
      cases hw : ((('/' :: repo) ++ "/".data).isPrefixOf p) with
      | true => exact absurd (Or.inr hw) hng
      | false => rfl
  have hb2 : (p == "/Cyb3Raya".data || "/Cyb3Raya/".data.isPrefixOf p) = true := by
    rcases hleg with h | h
    · rw [h, beq_self_eq_true, Bool.true_or]
    · rw [h, Bool.or_true]
  unfold normCore
  rw [if_neg (bool_ne_true hb1), if_pos hb2]
  by_cases hd : List.drop 9 p = []
  · rw [if_pos (beq_iff_eq.mpr hd), if_pos hd]
  · rw [if_neg (bool_ne_true (beq_eq_false_iff_ne.mpr hd)), if_neg hd]

theorem normCore_default {p repo : List Char}
    (hng : ¬ (p = ('/' :: repo) ∨ (('/' :: repo) ++ "/".data).isPrefixOf p = true))
    (hnleg : ¬ (p = "/Cyb3Raya".data ∨ "/Cyb3Raya/".data.isPrefixOf p = true)) :
    normCore p repo = ('/' :: repo) ++ p := by
  have hb1 : (p == ('/' :: repo) || (('/' :: repo) ++ "/".data).isPrefixOf p) = false := by
    cases hv : (p == ('/' :: repo)) with
    | true => exact absurd (Or.inl (beq_iff_eq.mp hv)) hng
    | false =>
      cases hw : ((('/' :: repo) ++ "/".data).isPrefixOf p) with
      | true => exact absurd (Or.inr hw) hng
      | false => rfl
  have hb2 : (p == "/Cyb3Raya".data || "/Cyb3Raya/".data.isPrefixOf p) = false := by
    cases hv : (p == "/Cyb3Raya".data) with
    | true => exact absurd (Or.inl (beq_iff_eq.mp hv)) hnleg
    | false =>
      cases hw : ("/Cyb3Raya/".data.isPrefixOf p) with
      | true => exact absurd (Or.inr hw) hnleg
      | false => rfl
  unfold normCore
  rw [if_neg (bool_ne_true hb1), if_neg (bool_ne_true hb2)]

theorem dedupRepo_exact (repo : List Char) :
    dedupRepo repo (('/' :: repo) ++ "/Cyb3Raya".data) = '/' :: repo := by
  unfold dedupRepo
  rw [List.drop_length, isPrefixOf_refl, List.append_nil]
  rw [if_pos]
  rfl

theorem dedupRepo_slash (repo u : List Char) :
    dedupRepo repo ((('/' :: repo) ++ "/Cyb3Raya".data) ++ '/' :: u) =
      ('/' :: repo) ++ '/' :: u := by
  unfold dedupRepo
  rw [List.drop_left, isPrefixOf_append_self, slash_pref_cons]
  rw [Bool.or_true, Bool.true_or, Bool.true_and]
  rw [if_pos rfl]

theorem dedupRepo_not_fire {repo p : List Char}
    (h1 : (('/' :: repo) ++ "/Cyb3Raya".data).isPrefixOf p = false ∨
      (List.drop (('/' :: repo) ++ "/Cyb3Raya".data).length p == [] ||
       "/".data.isPrefixOf (List.drop (('/' :: repo) ++ "/Cyb3Raya".data).length p) ||
       List.drop (('/' :: repo) ++ "/Cyb3Raya".data).length p == ['\n']) = false) :
    dedupRepo repo p = p := by
  unfold dedupRepo
  rcases h1 with h | h
  · rw [h, Bool.false_and, if_neg (bool_ne_true rfl)]
  · rw [h, Bool.and_false, if_neg (bool_ne_true rfl)]

theorem dedupRepo_not_fire_stripped {repo p : List Char}
    (hs : pyStrip p = p)
    (hseg : startsWithSeg (('/' :: repo) ++ "/Cyb3Raya".data) p = false) :
    dedupRepo repo p = p := by
  apply dedupRepo_not_fire
  cases hpre : (('/' :: repo) ++ "/Cyb3Raya".data).isPrefixOf p with
  | false => exact Or.inl rfl
  | true =>
    right
    have hps := isPrefixOf_eq_append hpre
    have hseg1 : (p == (('/' :: repo) ++ "/Cyb3Raya".data)) = false := by
      cases hq : (p == (('/' :: repo) ++ "/Cyb3Raya".data)) with
      | false => rfl
      | true =>
        exfalso
        have hT : startsWithSeg (('/' :: repo) ++ "/Cyb3Raya".data) p = true := by
          unfold startsWithSeg
          rw [hq, Bool.true_or]
        rw [hseg] at hT
        exact Bool.noConfusion hT
    have hseg2 : (((('/' :: repo) ++ "/Cyb3Raya".data) ++ "/".data).isPrefixOf p) = false := by
      cases hq : ((('/' :: repo) ++ "/Cyb3Raya".data) ++ "/".data).isPrefixOf p with
      | false => rfl
      | true =>
        exfalso
        have hT : startsWithSeg (('/' :: repo) ++ "/Cyb3Raya".data) p = true := by
          unfold startsWithSeg
          rw [hq, Bool.or_true]
        rw [hseg] at hT
        exact Bool.noConfusion hT
    have hd1 : (List.drop (('/' :: repo) ++ "/Cyb3Raya".data).length p == []) = false := by
      cases hq : (List.drop (('/' :: repo) ++ "/Cyb3Raya".data).length p == []) with
      | false => rfl
      | true =>
        exfalso
        have he := beq_iff_eq.mp hq
        rw [he, List.append_nil] at hps
        exact (beq_eq_false_iff_ne.mp hseg1) hps
    have hd2 : "/".data.isPrefixOf
        (List.drop (('/' :: repo) ++ "/Cyb3Raya".data).length p) = false := by
      cases hq : "/".data.isPrefixOf
          (List.drop (('/' :: repo) ++ "/Cyb3Raya".data).length p) with
      | false => rfl
      | true =>
        exfalso
        obtain ⟨u, hu⟩ := (slash_pref_iff _).mp hq
        have hT : ((('/' :: repo) ++ "/Cyb3Raya".data) ++ "/".data).isPrefixOf p = true := by
          rw [hps, hu, isPrefixOf_cancel]
          exact slash_pref_cons u
        rw [hseg2] at hT
        exact Bool.noConfusion hT
    have hd3 : (List.drop (('/' :: repo) ++ "/Cyb3Raya".data).length p == ['\n']) = false := by
      cases hq : (List.drop (('/' :: repo) ++ "/Cyb3Raya".data).length p == ['\n']) with
      | false => rfl
      | true =>
        exfalso
        have he := beq_iff_eq.mp hq
        rw [he] at hps
        have hlast : p.getLast? = some '\n' := by
          rw [hps, getLast?_append_ne]
          · rfl
          · exact fun hcon => List.noConfusion hcon
        have hf := stripped_getLast hs hlast
        rw [show isPySpace '\n' = true from by decide] at hf
        exact Bool.noConfusion hf
    rw [hd1, hd2, hd3]
    rfl

/-- C1 (counterexample): engine 2 does rewrite inside an external URL — on
the text `https://example.com/Cyb3Raya/x`, which `is_external` classifies
as external, `apply_replacements` with the prefix list `["/Cyb3Raya/"]`
alters the URL, so the claim that `apply_replacements` never alters the
characters of an external URL occurring in the text is false. -/
theorem claim_C1_counterexample :
    is_external "https://example.com/Cyb3Raya/x".data = true ∧
    (apply_replacements "https://example.com/Cyb3Raya/x".data ["/Cyb3Raya/".data]).1 ≠
      "https://example.com/Cyb3Raya/x".data := by
  constructor
  · decide
  · decide

/-- C1 (amended): engine 1 never rewrites an external path —
`normalize_root_path` returns every path classified external by
`is_external` byte-for-byte; engine 2 gives no such guarantee. -/
theorem claim_C1_external_unchanged_engine1 :
    ∀ path repo : List Char, is_external path = true →
      normalize_root_path path repo = path := by
  intro path repo h
  apply normalize_external
  rw [is_external_strip]
  exact h

theorem claim_C1_witness :
    is_external "#frag".data = true ∧
    normalize_root_path "#frag".data "Cyb3Raya-Blog".data = "#frag".data :=
  ⟨by decide, claim_C1_external_unchanged_engine1 "#frag".data "Cyb3Raya-Blog".data (by decide)⟩

/-- C5: for every repo and every trimmed, root-absolute, non-external path
that fails the `/<repo>` test but is `/Cyb3Raya` or begins with
`/Cyb3Raya/`, `normalize_root_path` replaces the leading legacy segment by
`/<repo>` and keeps the remainder (an empty remainder becomes `/`); in
particular `/Cyb3Raya/HTML/b.html` maps to
`/Cyb3Raya-Blog/HTML/b.html`. -/
theorem claim_C5_legacy_rewrite :
    (∀ p repo : List Char, pyStrip p = p →
      "/".data.isPrefixOf p = true →
      is_external p = false →
      ¬ (p = ('/' :: repo) ∨ (('/' :: repo) ++ "/".data).isPrefixOf p = true) →
      (p = "/Cyb3Raya".data ∨ "/Cyb3Raya/".data.isPrefixOf p = true) →
      normalize_root_path p repo =
        (if List.drop 9 p = [] then ('/' :: repo) ++ "/".data
         else ('/' :: repo) ++ List.drop 9 p)) ∧
    normalize_root_path "/Cyb3Raya/HTML/b.html".data "Cyb3Raya-Blog".data =
      "/Cyb3Raya-Blog/HTML/b.html".data := by
  constructor
  · intro p repo hs hroot hext hng hleg
    have h1 : "/".data.isPrefixOf (pyStrip p) = true := by
      rw [hs]
      exact hroot
    have h2 : is_external (pyStrip p) = false := by
      rw [hs]
      exact hext
    rw [normalize_eq_core h1 h2, hs]
    exact normCore_legacy hng hleg
  · decide

theorem claim_C5_witness :
    normalize_root_path "/Cyb3Raya/z".data "R".data =
      (if List.drop 9 "/Cyb3Raya/z".data = [] then ('/' :: "R".data) ++ "/".data
       else ('/' :: "R".data) ++ List.drop 9 "/Cyb3Raya/z".data) :=
  claim_C5_legacy_rewrite.1 "/Cyb3Raya/z".data "R".data (by decide) (by decide) (by decide)
    (by decide) (by decide)

/-- C6: for every repo and every trimmed, non-external path that begins
with the `/<repo>` segment, `normalize_root_path` only collapses one
literal `Cyb3Raya` segment right after the prefix — `/<repo>/Cyb3Raya/rest`
becomes `/<repo>/rest`, `/<repo>/Cyb3Raya` becomes `/<repo>`, and any path
not carrying that duplicated segment is returned unchanged; in particular
the two quoted example paths behave as stated. -/
theorem claim_C6_repo_branch :
    (∀ p repo : List Char, pyStrip p = p →
      is_external p = false →
      (p = ('/' :: repo) ∨ (('/' :: repo) ++ "/".data).isPrefixOf p = true) →
      ((∀ rest : List Char, p = (('/' :: repo) ++ "/Cyb3Raya".data) ++ '/' :: rest →
          normalize_root_path p repo = ('/' :: repo) ++ '/' :: rest) ∧
       (p = ('/' :: repo) ++ "/Cyb3Raya".data →
          normalize_root_path p repo = '/' :: repo) ∧
       (startsWithSeg (('/' :: repo) ++ "/Cyb3Raya".data) p = false →
          normalize_root_path p repo = p))) ∧
    normalize_root_path "/Cyb3Raya-Blog/Cyb3Raya/img.png".data "Cyb3Raya-Blog".data =
      "/Cyb3Raya-Blog/img.png".data ∧
    normalize_root_path "/Cyb3Raya-Blog/CSS/a.css".data "Cyb3Raya-Blog".data =
      "/Cyb3Raya-Blog/CSS/a.css".data := by
  refine ⟨?_, by decide, by decide⟩
  intro p repo hs hext hgood
  have hroot : "/".data.isPrefixOf p = true := by
    rcases hgood with h | h
    · rw [h]
      exact slash_pref_cons repo
    · rw [isPrefixOf_eq_append h]
      exact slash_pref_cons _
  have h1 : "/".data.isPrefixOf (pyStrip p) = true := by
    rw [hs]
    exact hroot
  have h2 : is_external (pyStrip p) = false := by
    rw [hs]
    exact hext
  have hcore : normalize_root_path p repo = dedupRepo repo p := by
    rw [normalize_eq_core h1 h2, hs]
    exact normCore_good hgood
  refine ⟨fun rest hrest => ?_, fun hexact => ?_, fun hseg => ?_⟩
  · rw [hcore, hrest]
    exact dedupRepo_slash repo rest
  · rw [hcore, hexact]
    exact dedupRepo_exact repo
  · rw [hcore]
    exact dedupRepo_not_fire_stripped hs hseg

theorem claim_C6_witness :
    normalize_root_path "/R/Cyb3Raya/i".data "R".data = ('/' :: "R".data) ++ '/' :: "i".data :=
  (claim_C6_repo_branch.1 "/R/Cyb3Raya/i".data "R".data (by decide) (by decide)
    (by decide)).1 "i".data (by decide)

/-- C7: for every repo and every trimmed, root-absolute, non-external path
matching neither the `/<repo>` rule nor the legacy `/Cyb3Raya` rule,
`normalize_root_path` prefixes it with `/<repo>`; in particular
`/CSS/a.css` maps to `/Cyb3Raya-Blog/CSS/a.css`. -/
theorem claim_C7_default_branch :
    (∀ p repo : List Char, pyStrip p = p →
      "/".data.isPrefixOf p = true →
      is_external p = false →
      ¬ (p = ('/' :: repo) ∨ (('/' :: repo) ++ "/".data).isPrefixOf p = true) →
      ¬ (p = "/Cyb3Raya".data ∨ "/Cyb3Raya/".data.isPrefixOf p = true) →
      normalize_root_path p repo = ('/' :: repo) ++ p) ∧
    normalize_root_path "/CSS/a.css".data "Cyb3Raya-Blog".data =
      "/Cyb3Raya-Blog/CSS/a.css".data := by
  constructor
  · intro p repo hs hroot hext hng hnleg
    have h1 : "/".data.isPrefixOf (pyStrip p) = true := by
      rw [hs]
      exact hroot
    have h2 : is_external (pyStrip p) = false := by
      rw [hs]
      exact hext
    rw [normalize_eq_core h1 h2, hs]
    exact normCore_default hng hnleg
  · decide

theorem claim_C7_witness :
    normalize_root_path "/x".data "R".data = ('/' :: "R".data) ++ "/x".data :=
  claim_C7_default_branch.1 "/x".data "R".data (by decide) (by decide) (by decide)
    (by decide) (by decide)

/-- C8 (counterexample): the raw path `"  /x"` does not start with `/`, yet
`normalize_root_path` changes it (the leading-slash test is made on the
stripped string), so the claim as stated — every string not starting with
`/` is returned unchanged — is false. -/
theorem claim_C8_counterexample :
    "/".data.isPrefixOf "  /x".data = false ∧
    normalize_root_path "  /x".data "Cyb3Raya-Blog".data ≠ "  /x".data := by
  constructor
  · decide
  · decide

/-- C8 (amended): for every string whose stripped form does not start with
`/`, `normalize_root_path` returns it unchanged, and the per-match
transform of `rewrite_text` leaves it unchanged contributing 0 to the
count. -/
theorem claim_C8_non_root_unchanged :
    ∀ path repo : List Char, "/".data.isPrefixOf (pyStrip path) = false →
      normalize_root_path path repo = path ∧ matchStep repo path = (path, 0) := by
  intro path repo h
  refine ⟨normalize_not_root h, ?_⟩
  simp [matchStep, replPath, h]

theorem claim_C8_witness :
    "/".data.isPrefixOf (pyStrip "rel/x".data) = false ∧
    normalize_root_path "rel/x".data "R".data = "rel/x".data ∧
    matchStep "R".data "rel/x".data = ("rel/x".data, 0) :=
  ⟨by decide, (claim_C8_non_root_unchanged "rel/x".data "R".data (by decide)).1,
    (claim_C8_non_root_unchanged "rel/x".data "R".data (by decide)).2⟩

/-- C9: when the stripped path is root-absolute and not external,
`normalize_root_path` computes its result from the stripped string (so
surrounding whitespace is dropped from the output); in particular
`rewrite_text` rewrites `href="  /Cyb3Raya-Blog/x  "` to
`href="/Cyb3Raya-Blog/x"` and counts it as one change. -/
theorem claim_C9_trim_semantics :
    (∀ path repo : List Char, "/".data.isPrefixOf (pyStrip path) = true →
      is_external (pyStrip path) = false →
      normalize_root_path path repo = normalize_root_path (pyStrip path) repo) ∧
    rewrite_text "href=\"  /Cyb3Raya-Blog/x  \"".data "Cyb3Raya-Blog".data =
      ("href=\"/Cyb3Raya-Blog/x\"".data, 1) := by
  constructor
  · intro path repo h1 h2
    have h1s : "/".data.isPrefixOf (pyStrip (pyStrip path)) = true := by
      rw [pyStrip_idem]
      exact h1
    have h2s : is_external (pyStrip (pyStrip path)) = false := by
      rw [pyStrip_idem]
      exact h2
    rw [normalize_eq_core h1 h2, normalize_eq_core h1s h2s, pyStrip_idem]
  · decide

theorem claim_C9_witness :
    normalize_root_path " /a ".data "R".data = normalize_root_path (pyStrip " /a ".data) "R".data :=
  claim_C9_trim_semantics.1 " /a ".data "R".data (by decide) (by decide)

/-- C10: an empty prefix in the list given to `apply_replacements` is
skipped entirely — it is not normalized, replaces nothing, and contributes
0 to the count. -/
theorem claim_C10_empty_skip :
    ∀ (content : List Char) (rest : List (List Char)),
      apply_replacements content ([] :: rest) = apply_replacements content rest := by
  intro content rest
  rfl

theorem pySplitF_ne_nil (pat : List Char) : ∀ fuel s, pySplitF pat fuel s ≠ [] := by
  intro fuel
  induction fuel with
  | zero =>
    intro s
    cases s <;> simp [pySplitF]
  | succ n ih =>
    intro s
    cases s with
    | nil => simp [pySplitF]
    | cons c rest =>
      simp only [pySplitF]
      split
      · exact fun h => List.noConfusion h
      · cases hL : pySplitF pat n rest with
        | nil => exact absurd hL (ih rest)
        | cons a as => simp [consHead]

theorem joinWith_nil_cons (rep : List Char) {L : List (List Char)} (h : L ≠ []) :
    joinWith rep ([] :: L) = rep ++ joinWith rep L := by
  cases L with
  | nil => exact absurd rfl h
  | cons a as => rfl

theorem joinWith_consHead (rep : List Char) (c : Char) {L : List (List Char)} (h : L ≠ []) :
    joinWith rep (consHead c L) = c :: joinWith rep L := by
  cases L with
  | nil => exact absurd rfl h
  | cons a as =>
    cases as with
    | nil => rfl
    | cons b bs => rfl

theorem replace_join (pat rep : List Char) :
    ∀ fuel s, replaceAllF pat rep fuel s = joinWith rep (pySplitF pat fuel s) := by
  intro fuel
  induction fuel with
  | zero =>
    intro s
    cases s <;> rfl
  | succ n ih =>
    intro s
    cases s with
    | nil => rfl
    | cons c rest =>
      simp only [replaceAllF, pySplitF]
      split
      · rw [joinWith_nil_cons rep (pySplitF_ne_nil pat n _), ih]
      · rw [joinWith_consHead rep c (pySplitF_ne_nil pat n rest), ih]

theorem replaceAll_eq_join (pat rep s : List Char) :
    replaceAll pat rep s = joinWith rep (pySplit pat s) :=
  replace_join pat rep s.length s

theorem normSlashA_head (pfx : List Char) : "/".data.isPrefixOf (normSlashA pfx) = true := by
  unfold normSlashA
  split
  · assumption
  · exact slash_pref_cons pfx

theorem normSlash_facts (pfx : List Char) :
    "/".data.isPrefixOf (normSlash pfx) = true ∧ (normSlash pfx).getLast? = some '/' := by
  unfold normSlash
  split
  case isTrue h => exact ⟨normSlashA_head pfx, beq_iff_eq.mp h⟩
  case isFalse h =>
    constructor
    · obtain ⟨t, ht⟩ := (slash_pref_iff _).mp (normSlashA_head pfx)
      rw [ht]
      exact slash_pref_cons _
    · rw [getLast?_append_ne]
      · rfl
      · exact fun hcon => List.noConfusion hcon

/-- C4: `apply_replacements` processes the prefixes in order; each
non-empty prefix is normalized to be slash-delimited, every occurrence of
the normalized prefix in the current text is replaced by one `/` (the
result equals the `/`-join of the split segments), and the count adds
(number of split segments of the pre-replacement text) - 1; in particular
the quoted example rewrites to `href="/CSS/x.css"` with count 1. -/
theorem claim_C4_replacement_semantics :
    (∀ content : List Char, apply_replacements content [] = (content, 0)) ∧
    (∀ (content pfx : List Char) (rest : List (List Char)), pfx ≠ [] →
      apply_replacements content (pfx :: rest) =
        ((apply_replacements (joinWith "/".data (pySplit (normSlash pfx) content)) rest).1,
         ((pySplit (normSlash pfx) content).length - 1) +
           (apply_replacements (joinWith "/".data (pySplit (normSlash pfx) content)) rest).2)) ∧
    (∀ pfx : List Char, pfx ≠ [] →
      "/".data.isPrefixOf (normSlash pfx) = true ∧ (normSlash pfx).getLast? = some '/') ∧
    apply_replacements "href=\"/Cyb3Raya-Blog/CSS/x.css\"".data ["/Cyb3Raya-Blog/".data] =
      ("href=\"/CSS/x.css\"".data, 1) := by
  refine ⟨fun content => rfl, ?_, fun pfx _ => normSlash_facts pfx, by decide⟩
  intro content pfx rest h
  have hie : pfx.isEmpty = false := by
    cases pfx with
    | nil => exact absurd rfl h
    | cons a as => rfl
  simp only [apply_replacements, hie, Bool.false_eq_true, if_false]
  rw [replaceAll_eq_join]

theorem claim_C4_witness :
    apply_replacements "/a/b".data ["a".data] =
      ((apply_replacements (joinWith "/".data (pySplit (normSlash "a".data) "/a/b".data)) []).1,
       ((pySplit (normSlash "a".data) "/a/b".data).length - 1) +
         (apply_replacements (joinWith "/".data (pySplit (normSlash "a".data) "/a/b".data)) []).2) :=
  claim_C4_replacement_semantics.2.1 "/a/b".data "a".data []
    (fun hcon => List.noConfusion hcon)

theorem attrTail_recon {r1 mid path suf rest : List Char}
    (h : attrTail r1 = some (mid, path, suf, rest)) :
    r1 = mid ++ path ++ suf ++ rest ∧ suf ≠ [] := by
  unfold attrTail at h
  split at h
  case h_1 r3 heq1 =>
    split at h
    case h_1 q1 r5 heq2 =>
      split at h
      · split at h
        case h_1 q2 r7 heq3 =>
          simp only [Option.some.injEq, Prod.mk.injEq] at h
          obtain ⟨rfl, rfl, rfl, rfl⟩ := h
          refine ⟨?_, fun hcon => List.noConfusion hcon⟩
          conv_lhs => rw [← List.takeWhile_append_dropWhile isPySpace r1, heq1]
          conv_lhs => rw [← List.takeWhile_append_dropWhile isPySpace r3, heq2]
          conv_lhs => rw [show r5 = List.takeWhile (fun c => !isQuote c) r5 ++ (q2 :: r7) from by
            rw [← heq3, List.takeWhile_append_dropWhile]]
          simp
        case h_2 => exact Option.noConfusion h
      · exact Option.noConfusion h
    case h_2 => exact Option.noConfusion h
  case h_2 => exact Option.noConfusion h

theorem tryAttrAt_recon {s pre path suf rest : List Char}
    (h : tryAttrAt s = some (pre, path, suf, rest)) :
    s = pre ++ path ++ suf ++ rest ∧ suf ≠ [] := by
  unfold tryAttrAt at h
  split at h
  · split at h
    case h_1 mid path2 suf2 rest2 heq =>
      simp only [Option.some.injEq, Prod.mk.injEq] at h
      obtain ⟨rfl, rfl, rfl, rfl⟩ := h
      obtain ⟨hrec, hsuf⟩ := attrTail_recon heq
      refine ⟨?_, hsuf⟩
      conv_lhs => rw [← List.take_append_drop 4 s, hrec]
      simp
    case h_2 => exact Option.noConfusion h
  · split at h
    · split at h
      case h_1 mid path2 suf2 rest2 heq =>
        simp only [Option.some.injEq, Prod.mk.injEq] at h
        obtain ⟨rfl, rfl, rfl, rfl⟩ := h
        obtain ⟨hrec, hsuf⟩ := attrTail_recon heq
        refine ⟨?_, hsuf⟩
        conv_lhs => rw [← List.take_append_drop 3 s, hrec]
        simp
      case h_2 => exact Option.noConfusion h
    · split at h
      · split at h
        case h_1 mid path2 suf2 rest2 heq =>
          simp only [Option.some.injEq, Prod.mk.injEq] at h
          obtain ⟨rfl, rfl, rfl, rfl⟩ := h
          obtain ⟨hrec, hsuf⟩ := attrTail_recon heq
          refine ⟨?_, hsuf⟩
          conv_lhs => rw [← List.take_append_drop 6 s, hrec]
          simp
        case h_2 => exact Option.noConfusion h
      · exact Option.noConfusion h

theorem cssAfterQuote_recon {r3 path suf rest : List Char}
    (h : cssAfterQuote r3 = some (path, suf, rest)) :
    r3 = path ++ suf ++ rest ∧ suf ≠ [] := by
  unfold cssAfterQuote at h
  split at h
  case h_1 c rest2 heq1 =>
    split at h
    case isTrue hc =>
      simp only [Option.some.injEq, Prod.mk.injEq] at h
      obtain ⟨rfl, rfl, rfl⟩ := h
      refine ⟨?_, fun hcon => List.noConfusion hcon⟩
      conv_lhs => rw [← List.takeWhile_append_dropWhile (fun c => !isQuote c && c != ')') r3,
        heq1]
      rw [beq_iff_eq.mp hc]
      simp
    case isFalse hc =>
      split at h
      case h_1 r6 heq2 =>
        simp only [Option.some.injEq, Prod.mk.injEq] at h
        obtain ⟨rfl, rfl, rfl⟩ := h
        refine ⟨?_, fun hcon => List.noConfusion hcon⟩
        conv_lhs => rw [← List.takeWhile_append_dropWhile (fun c => !isQuote c && c != ')') r3,
          heq1]
        conv_lhs => rw [show rest2 = List.takeWhile isPySpace rest2 ++ (')' :: r6) from by
          rw [← heq2, List.takeWhile_append_dropWhile]]
        simp
      case h_2 => exact Option.noConfusion h
  case h_2 => exact Option.noConfusion h

theorem cssTail_recon {r1 mid path suf rest : List Char}
    (h : cssTail r1 = some (mid, path, suf, rest)) :
    r1 = mid ++ path ++ suf ++ rest ∧ suf ≠ [] := by
  unfold cssTail at h
  split at h
  case h_1 => exact Option.noConfusion h
  case h_2 q r2 heq1 =>
    split at h
    · split at h
      case h_1 path2 suf2 rest2 heq2 =>
        simp only [Option.some.injEq, Prod.mk.injEq] at h
        obtain ⟨rfl, rfl, rfl, rfl⟩ := h
        obtain ⟨hr, hsuf⟩ := cssAfterQuote_recon heq2
        refine ⟨?_, hsuf⟩
        conv_lhs => rw [← List.takeWhile_append_dropWhile isPySpace r1, heq1, hr]
        simp
      case h_2 => exact Option.noConfusion h
    · split at h
      case h_1 path2 suf2 rest2 heq2 =>
        simp only [Option.some.injEq, Prod.mk.injEq] at h
        obtain ⟨rfl, rfl, rfl, rfl⟩ := h
        obtain ⟨hr, hsuf⟩ := cssAfterQuote_recon heq2
        refine ⟨?_, hsuf⟩
        conv_lhs => rw [← List.takeWhile_append_dropWhile isPySpace r1, heq1, hr]
        simp
      case h_2 => exact Option.noConfusion h

theorem tryCssAt_recon {s pre path suf rest : List Char}
    (h : tryCssAt s = some (pre, path, suf, rest)) :
    s = pre ++ path ++ suf ++ rest ∧ suf ≠ [] := by
  unfold tryCssAt at h
  split at h
  · split at h
    case h_1 mid path2 suf2 rest2 heq =>
      simp only [Option.some.injEq, Prod.mk.injEq] at h
      obtain ⟨rfl, rfl, rfl, rfl⟩ := h
      obtain ⟨hrec, hsuf⟩ := cssTail_recon heq
      refine ⟨?_, hsuf⟩
      conv_lhs => rw [← List.take_append_drop 4 s, hrec]
      simp
    case h_2 => exact Option.noConfusion h
  · exact Option.noConfusion h

theorem recon_length {pre path suf rest s : List Char}
    (hs : s = pre ++ path ++ suf ++ rest) (hsuf : suf ≠ []) : rest.length < s.length := by
  subst hs
  cases suf with
  | nil => exact absurd rfl hsuf
  | cons a as =>
    simp [List.length_append]
    omega

theorem matchStep_count0 {repo old : List Char} (h : (matchStep repo old).2 = 0) :
    (matchStep repo old).1 = old := by
  unfold matchStep at h ⊢
  split at h
  case isTrue hq => exact beq_iff_eq.mp hq
  case isFalse hq => exact absurd (show (1 : Nat) = 0 from h) (by decide)

theorem scanSub_word (tryAt : List Char → Option (List Char × List Char × List Char × List Char))
    (repo : List Char) (n : Nat) (c : Char) (rest : List Char) :
    scanSub tryAt repo (n + 1) (c :: rest) true =
      (c :: (scanSub tryAt repo n rest (isWordChar c)).1,
       (scanSub tryAt repo n rest (isWordChar c)).2) := rfl

theorem scanSub_match (tryAt : List Char → Option (List Char × List Char × List Char × List Char))
    (repo : List Char) (n : Nat) (c : Char) (rest : List Char)
    {pre path suf after : List Char}
    (hm : tryAt (c :: rest) = some (pre, path, suf, after)) :
    scanSub tryAt repo (n + 1) (c :: rest) false =
      (pre ++ (matchStep repo path).1 ++ suf ++ (scanSub tryAt repo n after false).1,
       (matchStep repo path).2 + (scanSub tryAt repo n after false).2) := by
  conv_lhs => rw [show scanSub tryAt repo (n + 1) (c :: rest) false =
    (match tryAt (c :: rest) with
     | some (pre, path, suf, after) =>
       (pre ++ (matchStep repo path).1 ++ suf ++ (scanSub tryAt repo n after false).1,
        (matchStep repo path).2 + (scanSub tryAt repo n after false).2)
     | none =>
       (c :: (scanSub tryAt repo n rest (isWordChar c)).1,
        (scanSub tryAt repo n rest (isWordChar c)).2)) from rfl]
  rw [hm]

theorem scanSub_nomatch
    (tryAt : List Char → Option (List Char × List Char × List Char × List Char))
    (repo : List Char) (n : Nat) (c : Char) (rest : List Char)
    (hm : tryAt (c :: rest) = none) :
    scanSub tryAt repo (n + 1) (c :: rest) false =
      (c :: (scanSub tryAt repo n rest (isWordChar c)).1,
       (scanSub tryAt repo n rest (isWordChar c)).2) := by
  conv_lhs => rw [show scanSub tryAt repo (n + 1) (c :: rest) false =
    (match tryAt (c :: rest) with
     | some (pre, path, suf, after) =>
       (pre ++ (matchStep repo path).1 ++ suf ++ (scanSub tryAt repo n after false).1,
        (matchStep repo path).2 + (scanSub tryAt repo n after false).2)
     | none =>
       (c :: (scanSub tryAt repo n rest (isWordChar c)).1,
        (scanSub tryAt repo n rest (isWordChar c)).2)) from rfl]
  rw [hm]

theorem scanSub_count0
    (tryAt : List Char → Option (List Char × List Char × List Char × List Char))
    (repo : List Char)
    (hrec : ∀ s pre path suf after, tryAt s = some (pre, path, suf, after) →
      s = pre ++ path ++ suf ++ after ∧ suf ≠ []) :
    ∀ (fuel : Nat) (s : List Char) (w : Bool), s.length ≤ fuel →
      (scanSub tryAt repo fuel s w).2 = 0 → (scanSub tryAt repo fuel s w).1 = s := by
  intro fuel
  induction fuel with
  | zero =>
    intro s w _ _
    rfl
  | succ n ih =>
    intro s w hl h
    cases s with
    | nil => rfl
    | cons c rest =>
      have hrl : rest.length ≤ n := by
        have : (c :: rest).length = rest.length + 1 := rfl
        omega
      cases w with
      | true =>
        rw [scanSub_word] at h ⊢
        have h2 : (scanSub tryAt repo n rest (isWordChar c)).2 = 0 := h
        show c :: (scanSub tryAt repo n rest (isWordChar c)).1 = c :: rest
        rw [ih rest (isWordChar c) hrl h2]
      | false =>
        cases hm : tryAt (c :: rest) with
        | none =>
          rw [scanSub_nomatch tryAt repo n c rest hm] at h ⊢
          have h2 : (scanSub tryAt repo n rest (isWordChar c)).2 = 0 := h
          show c :: (scanSub tryAt repo n rest (isWordChar c)).1 = c :: rest
          rw [ih rest (isWordChar c) hrl h2]
        | some quad =>
          obtain ⟨pre, path, suf, after⟩ := quad
          rw [scanSub_match tryAt repo n c rest hm] at h ⊢
          have h2 : (matchStep repo path).2 + (scanSub tryAt repo n after false).2 = 0 := h
          have hst : (matchStep repo path).2 = 0 := by omega
          have hsc : (scanSub tryAt repo n after false).2 = 0 := by omega
          obtain ⟨hs, hsuf⟩ := hrec _ _ _ _ _ hm
          have hal : after.length ≤ n := by
            have hlt := recon_length hs hsuf
            have : (c :: rest).length = rest.length + 1 := rfl
            omega
          show pre ++ (matchStep repo path).1 ++ suf ++ (scanSub tryAt repo n after false).1 =
            c :: rest
          rw [matchStep_count0 hst, ih after false hal hsc]
          exact hs.symm

theorem tryAttrAt_recon_all :
    ∀ (s pre path suf after : List Char), tryAttrAt s = some (pre, path, suf, after) →
      s = pre ++ path ++ suf ++ after ∧ suf ≠ [] :=
  fun _ _ _ _ _ h => tryAttrAt_recon h

theorem tryCssAt_recon_all :
    ∀ (s pre path suf after : List Char), tryCssAt s = some (pre, path, suf, after) →
      s = pre ++ path ++ suf ++ after ∧ suf ≠ [] :=
  fun _ _ _ _ _ h => tryCssAt_recon h

theorem rewrite_text_zero_eq {t repo : List Char} (h : (rewrite_text t repo).2 = 0) :
    (rewrite_text t repo).1 = t := by
  have h2 : (attrScanF repo t.length t false).2 +
      (cssScanF repo (attrScanF repo t.length t false).1.length
        (attrScanF repo t.length t false).1 false).2 = 0 := h
  have ha : (attrScanF repo t.length t false).2 = 0 := by omega
  have hb : (cssScanF repo (attrScanF repo t.length t false).1.length
      (attrScanF repo t.length t false).1 false).2 = 0 := by omega
  have ha1 : (attrScanF repo t.length t false).1 = t :=
    scanSub_count0 tryAttrAt repo tryAttrAt_recon_all t.length t false (le_refl _) ha
  have hb1 : (cssScanF repo (attrScanF repo t.length t false).1.length
      (attrScanF repo t.length t false).1 false).1 = (attrScanF repo t.length t false).1 :=
    scanSub_count0 tryCssAt repo tryCssAt_recon_all _ _ false (le_refl _) hb
  exact hb1.trans ha1

theorem applyrep_skip (content : List Char) (rest : List (List Char)) :
    apply_replacements content ([] :: rest) = apply_replacements content rest := rfl

theorem applyrep_cons (content : List Char) (a : Char) (pfx : List Char)
    (rest : List (List Char)) :
    apply_replacements content ((a :: pfx) :: rest) =
      ((apply_replacements (replaceAll (normSlash (a :: pfx)) "/".data content) rest).1,
       ((pySplit (normSlash (a :: pfx)) content).length - 1) +
         (apply_replacements (replaceAll (normSlash (a :: pfx)) "/".data content) rest).2) :=
  rfl

theorem pySplitF_len1 (pat : List Char) :
    ∀ fuel s, (pySplitF pat fuel s).length = 1 → pySplitF pat fuel s = [s] := by
  intro fuel
  induction fuel with
  | zero =>
    intro s h
    cases s <;> rfl
  | succ n ih =>
    intro s h
    cases s with
    | nil => rfl
    | cons c rest =>
      simp only [pySplitF] at h ⊢
      by_cases hc : (!pat.isEmpty && pat.isPrefixOf (c :: rest)) = true
      · rw [if_pos hc] at h
        exfalso
        have hne := pySplitF_ne_nil pat n (List.drop pat.length (c :: rest))
        have hz : (pySplitF pat n (List.drop pat.length (c :: rest))).length = 0 := by
          have : (pySplitF pat n (List.drop pat.length (c :: rest))).length + 1 = 1 := h
          omega
        exact hne (List.length_eq_zero.mp hz)
      · rw [if_neg hc] at h ⊢
        cases hL : pySplitF pat n rest with
        | nil => exact absurd hL (pySplitF_ne_nil pat n rest)
        | cons a as =>
          rw [hL] at h
          simp only [consHead] at h ⊢
          have has : as = [] := by
            have hz : as.length = 0 := by
              have : as.length + 1 = 1 := h
              omega
            exact List.length_eq_zero.mp hz
          subst has
          have hL2 := ih rest (by rw [hL]; rfl)
          rw [hL] at hL2
          injection hL2 with h1 _
          subst h1
          rfl

theorem pySplit_count0 {pat s : List Char} (h : (pySplit pat s).length - 1 = 0) :
    pySplit pat s = [s] := by
  have hne : (pySplit pat s).length ≠ 0 := by
    intro hz
    exact pySplitF_ne_nil pat s.length s (List.length_eq_zero.mp hz)
  have h1 : (pySplit pat s).length = 1 := by omega
  exact pySplitF_len1 pat s.length s h1

theorem replaceAll_of_split1 {pat rep s : List Char} (h : pySplit pat s = [s]) :
    replaceAll pat rep s = s := by
  rw [replaceAll_eq_join, h]
  rfl

theorem apply_replacements_count0 :
    ∀ (pfxs : List (List Char)) (content : List Char),
      (apply_replacements content pfxs).2 = 0 → (apply_replacements content pfxs).1 = content := by
  intro pfxs
  induction pfxs with
  | nil =>
    intro content _
    rfl
  | cons pfx rest ih =>
    intro content h
    cases pfx with
    | nil =>
      rw [applyrep_skip] at h ⊢
      exact ih content h
    | cons a pfx2 =>
      rw [applyrep_cons] at h ⊢
      have h2 : ((pySplit (normSlash (a :: pfx2)) content).length - 1) +
          (apply_replacements (replaceAll (normSlash (a :: pfx2)) "/".data content) rest).2 =
          0 := h
      have hn : (pySplit (normSlash (a :: pfx2)) content).length - 1 = 0 := by omega
      have hm : (apply_replacements
          (replaceAll (normSlash (a :: pfx2)) "/".data content) rest).2 = 0 := by omega
      have hrepl : replaceAll (normSlash (a :: pfx2)) "/".data content = content :=
        replaceAll_of_split1 (pySplit_count0 hn)
      show (apply_replacements (replaceAll (normSlash (a :: pfx2)) "/".data content) rest).1 =
        content
      rw [hrepl] at hm ⊢
      exact ih content hm

theorem pySplitF_noOccur {pat : List Char} :
    ∀ fuel s, occursIn pat s = false → pySplitF pat fuel s = [s] := by
  intro fuel
  induction fuel with
  | zero =>
    intro s _
    cases s <;> rfl
  | succ n ih =>
    intro s h
    cases s with
    | nil => rfl
    | cons c rest =>
      have ho : pat.isPrefixOf (c :: rest) = false ∧ occursIn pat rest = false := by
        have h2 : (pat.isPrefixOf (c :: rest) || occursIn pat rest) = false := h
        exact Bool.or_eq_false_iff.mp h2
      simp only [pySplitF]
      rw [if_neg]
      · rw [ih rest ho.2]
        rfl
      · rw [ho.1, Bool.and_false]
        exact bool_ne_true rfl

theorem apply_replacements_noOccur :
    ∀ (pfxs : List (List Char)) (t : List Char),
      (∀ pfx ∈ pfxs, pfx ≠ [] → occursIn (normSlash pfx) t = false) →
      apply_replacements t pfxs = (t, 0) := by
  intro pfxs
  induction pfxs with
  | nil =>
    intro t _
    rfl
  | cons pfx rest ih =>
    intro t h
    cases pfx with
    | nil =>
      rw [applyrep_skip]
      exact ih t (fun q hq hne => h q (List.mem_cons_of_mem [] hq) hne)
    | cons a pfx2 =>
      have hocc := h (a :: pfx2) (List.mem_cons_self (a :: pfx2) rest)
        (fun hcon => List.noConfusion hcon)
      have hsplit : pySplit (normSlash (a :: pfx2)) t = [t] :=
        pySplitF_noOccur t.length t hocc
      have hrepl : replaceAll (normSlash (a :: pfx2)) "/".data t = t :=
        replaceAll_of_split1 hsplit
      rw [applyrep_cons, hrepl, hsplit,
        ih t (fun q hq hne => h q (List.mem_cons_of_mem (a :: pfx2) hq) hne)]
      rfl

/-- C3 (counterexample): a second pass with the same configuration is not
a no-op for either engine — `rewrite_text` finds a further change on the
output of rewriting `href="/Cyb3Raya/Cyb3Raya/x"` (the classifier strips
only one duplicated legacy segment per pass), and `apply_replacements`
with `["/a/"]` finds a further occurrence in its own output for the text
`/a/a/x` (replacement creates a new occurrence). -/
theorem claim_C3_counterexample :
    (rewrite_text (rewrite_text "href=\"/Cyb3Raya/Cyb3Raya/x\"".data "Cyb3Raya-Blog".data).1
      "Cyb3Raya-Blog".data).2 ≠ 0 ∧
    (apply_replacements (apply_replacements "/a/a/x".data ["/a/".data]).1 ["/a/".data]).2 ≠ 0 := by
  constructor
  · decide
  · decide

/-- C3 (amended): a second pass is not guaranteed to make zero changes.
What does hold: a pass of either engine that reports count 0 returned its
input text unchanged; and `apply_replacements` returns `(text, 0)` on any
text in which no normalized prefix occurs — in particular a second
engine-2 pass returns the same text with count 0 whenever the first
pass's output contains no occurrence of any normalized prefix. -/
theorem claim_C3_second_pass_amended :
    (∀ (t repo : List Char), (rewrite_text t repo).2 = 0 → (rewrite_text t repo).1 = t) ∧
    (∀ (pfxs : List (List Char)) (content : List Char),
      (apply_replacements content pfxs).2 = 0 → (apply_replacements content pfxs).1 = content) ∧
    (∀ (pfxs : List (List Char)) (t : List Char),
      (∀ pfx ∈ pfxs, pfx ≠ [] → occursIn (normSlash pfx) t = false) →
      apply_replacements t pfxs = (t, 0)) :=
  ⟨fun _ _ h => rewrite_text_zero_eq h, apply_replacements_count0, apply_replacements_noOccur⟩

theorem claim_C3_witness :
    (rewrite_text "no paths here".data "R".data).2 = 0 ∧
    (rewrite_text "no paths here".data "R".data).1 = "no paths here".data ∧
    (apply_replacements "xyz".data ["/a/".data]).1 = "xyz".data :=
  ⟨by decide, claim_C3_second_pass_amended.1 "no paths here".data "R".data (by decide),
    claim_C3_second_pass_amended.2.1 ["/a/".data] "xyz".data (by decide)⟩

theorem bool_eq_false {b : Bool} (h : ¬ b = true) : b = false := by
  cases b
  · rfl
  · exact absurd rfl h

theorem isPrefixOf_false_of_longer {a s : List Char} (h : s.length < a.length) :
    a.isPrefixOf s = false := by
  cases hv : a.isPrefixOf s with
  | false => rfl
  | true =>
    exact absurd (List.IsPrefix.length_le (List.isPrefixOf_iff_prefix.mp hv)) (by omega)

theorem strip_slash_cons (t : List Char)
    (hl : ∀ ch, t.getLast? = some ch → isPySpace ch = false) :
    pyStrip ('/' :: t) = '/' :: t := by
  apply pyStrip_eq_self_of
  · intro ch hch
    rw [List.head?_cons] at hch
    injection hch with h1
    subst h1
    decide
  · intro ch hch
    cases t with
    | nil =>
      rw [show (['/'] : List Char).getLast? = some '/' from rfl] at hch
      injection hch with h1
      subst h1
      decide
    | cons a as =>
      rw [show ('/' :: a :: as) = ['/'] ++ (a :: as) from rfl,
        getLast?_append_ne (fun hcon => List.noConfusion hcon)] at hch
      exact hl ch hch

theorem tail_last_nonspace {X w q : List Char} (hq : q = X ++ w) (hqs : pyStrip q = q) :
    ∀ ch, w.getLast? = some ch → isPySpace ch = false := by
  intro ch hch
  apply stripped_getLast hqs
  rw [hq, getLast?_append_ne]
  · exact hch
  · intro hw
    rw [hw] at hch
    exact Option.noConfusion hch

theorem last_slash_w {q X w : List Char} (hq : q = X ++ w) (hqs : pyStrip q = q) :
    ∀ ch, ('/' :: w).getLast? = some ch → isPySpace ch = false := by
  intro ch hch
  cases w with
  | nil =>
    rw [show (['/'] : List Char).getLast? = some '/' from rfl] at hch
    injection hch with h1
    subst h1
    decide
  | cons a as =>
    rw [show ('/' :: a :: as) = ['/'] ++ (a :: as) from rfl,
      getLast?_append_ne (fun hcon => List.noConfusion hcon)] at hch
    exact tail_last_nonspace hq hqs ch hch

theorem strip_good_slash_w {repo q X w : List Char} (hq : q = X ++ w)
    (hqs : pyStrip q = q) :
    pyStrip (('/' :: repo) ++ '/' :: w) = ('/' :: repo) ++ '/' :: w := by
  rw [show (('/' :: repo) ++ '/' :: w) = '/' :: (repo ++ '/' :: w) from rfl]
  apply strip_slash_cons
  intro ch hch
  rw [getLast?_append_ne (fun hcon => List.noConfusion hcon)] at hch
  exact last_slash_w hq hqs ch hch

theorem strip_good {repo : List Char} (hrepo : pyStrip repo = repo) :
    pyStrip ('/' :: repo) = '/' :: repo := by
  apply strip_slash_cons
  intro ch hch
  exact stripped_getLast hrepo hch

theorem strip_good_slash (repo : List Char) :
    pyStrip (('/' :: repo) ++ "/".data) = ('/' :: repo) ++ "/".data := by
  rw [show (('/' :: repo) ++ "/".data) = '/' :: (repo ++ ['/']) from rfl]
  apply strip_slash_cons
  intro ch hch
  rw [getLast?_append_ne (fun hcon => List.noConfusion hcon)] at hch
  rw [show (['/'] : List Char).getLast? = some '/' from rfl] at hch
  injection hch with h1
  subst h1
  decide

theorem noslash_parts {repo Y : List Char}
    (hnos : "/".data.isPrefixOf (repo ++ '/' :: Y) = false) :
    repo ≠ [] ∧ "/".data.isPrefixOf repo = false := by
  cases repo with
  | nil =>
    exfalso
    rw [List.nil_append, slash_pref_cons] at hnos
    exact Bool.noConfusion hnos
  | cons c rr =>
    refine ⟨fun hcon => List.noConfusion hcon, ?_⟩
    by_cases hc : c = '/'
    · exfalso
      subst hc
      rw [show (('/' :: rr) ++ '/' :: Y) = '/' :: (rr ++ '/' :: Y) from rfl,
        slash_pref_cons] at hnos
      exact Bool.noConfusion hnos
    · exact isPrefixOf_cons_ne (fun he => hc he.symm)

theorem noslash_append {repo Z : List Char} (hrne : repo ≠ [])
    (hrnos : "/".data.isPrefixOf repo = false) :
    "/".data.isPrefixOf (repo ++ Z) = false := by
  cases repo with
  | nil => exact absurd rfl hrne
  | cons c rr =>
    have hc : ('/' : Char) ≠ c := by
      intro he
      rw [← he, slash_pref_cons] at hrnos
      exact Bool.noConfusion hrnos
    exact isPrefixOf_cons_ne hc

theorem seg_shift {repo w : List Char}
    (h : startsWithSeg (('/' :: repo) ++ "/Cyb3Raya".data)
      (('/' :: repo) ++ '/' :: w) = true) :
    ('/' :: w = "/Cyb3Raya".data) ∨ ("/Cyb3Raya/".data.isPrefixOf ('/' :: w) = true) := by
  unfold startsWithSeg at h
  cases hA : ((('/' :: repo) ++ '/' :: w) == (('/' :: repo) ++ "/Cyb3Raya".data)) with
  | true =>
    left
    exact List.append_cancel_left (beq_iff_eq.mp hA)
  | false =>
    right
    rw [hA, Bool.false_or] at h
    rw [List.append_assoc, isPrefixOf_cancel] at h
    rw [show ("/Cyb3Raya".data ++ "/".data) = "/Cyb3Raya/".data from rfl] at h
    exact h

theorem norm_fix_good {repo r : List Char}
    (hrs : pyStrip r = r)
    (hext : is_external r = false)
    (hgood : r = ('/' :: repo) ∨ (('/' :: repo) ++ "/".data).isPrefixOf r = true)
    (hseg : startsWithSeg (('/' :: repo) ++ "/Cyb3Raya".data) r = false) :
    normalize_root_path r repo = r := by
  have hroot : "/".data.isPrefixOf r = true := by
    rcases hgood with h | h
    · rw [h]
      exact slash_pref_cons repo
    · rw [isPrefixOf_eq_append h]
      exact slash_pref_cons _
  have h1 : "/".data.isPrefixOf (pyStrip r) = true := by
    rw [hrs]
    exact hroot
  have h2 : is_external (pyStrip r) = false := by
    rw [hrs]
    exact hext
  rw [normalize_eq_core h1 h2, hrs, normCore_good hgood]
  exact dedupRepo_not_fire_stripped hrs hseg

theorem repo_parts_of_good_shape {repo q Z : List Char}
    (hq3 : q = ('/' :: repo) ++ ("/Cyb3Raya".data ++ Z))
    (hqs : pyStrip q = q) (hext : is_external q = false) :
    repo ≠ [] ∧ "/".data.isPrefixOf repo = false := by
  have hstrip2 : pyStrip ('/' :: (repo ++ ("/Cyb3Raya".data ++ Z))) =
      '/' :: (repo ++ ("/Cyb3Raya".data ++ Z)) := by
    rw [← List.cons_append, ← hq3]
    exact hqs
  have he2 := is_external_slash hstrip2
  rw [← List.cons_append, ← hq3, hext] at he2
  have hno : "/".data.isPrefixOf (repo ++ '/' :: ("Cyb3Raya".data ++ Z)) = false := he2.symm
  exact noslash_parts hno

theorem ext_false_good_slash {repo q X w : List Char}
    (hqs : pyStrip q = q) (hq : q = X ++ '/' :: w)
    (hrne : repo ≠ []) (hrnos : "/".data.isPrefixOf repo = false) :
    is_external (('/' :: repo) ++ '/' :: w) = false := by
  have hq' : q = (X ++ ['/']) ++ w := by
    rw [hq, List.append_assoc, List.singleton_append]
  have hrs : pyStrip (('/' :: repo) ++ '/' :: w) = ('/' :: repo) ++ '/' :: w :=
    strip_good_slash_w hq' hqs
  have hsl := is_external_slash (t := repo ++ '/' :: w) hrs
  exact hsl.trans (noslash_append hrne hrnos)

theorem fix_good_slash_w {repo q X w : List Char}
    (hqs : pyStrip q = q)
    (hq : q = X ++ '/' :: w)
    (hext2 : is_external (('/' :: repo) ++ '/' :: w) = false)
    (hnoseg : startsWithSeg (('/' :: repo) ++ "/Cyb3Raya".data)
      (('/' :: repo) ++ '/' :: w) = false) :
    normalize_root_path (('/' :: repo) ++ '/' :: w) repo = ('/' :: repo) ++ '/' :: w := by
  have hq' : q = (X ++ ['/']) ++ w := by
    rw [hq, List.append_assoc, List.singleton_append]
  have hrs : pyStrip (('/' :: repo) ++ '/' :: w) = ('/' :: repo) ++ '/' :: w :=
    strip_good_slash_w hq' hqs
  apply norm_fix_good hrs hext2 ?_ hnoseg
  right
  rw [show (('/' :: repo) ++ '/' :: w) = (('/' :: repo) ++ "/".data) ++ w from by
    rw [List.append_assoc, show ("/".data : List Char) = ['/'] from rfl,
      List.singleton_append]]
  exact isPrefixOf_append_self _ w

theorem seg_violation {P q u : List Char}
    (hq2 : q = (P ++ "/Cyb3Raya".data) ++ '/' :: u)
    (hcase : ('/' :: u = "/Cyb3Raya".data) ∨ ("/Cyb3Raya/".data.isPrefixOf ('/' :: u) = true)) :
    startsWithSeg (P ++ "/Cyb3Raya/Cyb3Raya".data) q = true := by
  rcases hcase with hA | hB
  · unfold startsWithSeg
    have hqq : q = P ++ "/Cyb3Raya/Cyb3Raya".data := by
      rw [hq2, hA, List.append_assoc,
        show ("/Cyb3Raya".data ++ "/Cyb3Raya".data : List Char) = "/Cyb3Raya/Cyb3Raya".data
          from rfl]
    rw [hqq, beq_self_eq_true, Bool.true_or]
  · have hv := isPrefixOf_eq_append hB
    unfold startsWithSeg
    have hqq : q = ((P ++ "/Cyb3Raya/Cyb3Raya".data) ++ "/".data) ++
        List.drop ("/Cyb3Raya/".data).length ('/' :: u) := by
      rw [hq2, hv]
      simp only [List.append_assoc]
      rfl
    rw [hqq, isPrefixOf_append_self, Bool.or_true]

theorem normCore_fix {q repo : List Char}
    (hqs : pyStrip q = q)
    (hrepo : pyStrip repo = repo)
    (hroot : "/".data.isPrefixOf q = true)
    (hext : is_external q = false)
    (hnd1 : startsWithSeg "/Cyb3Raya/Cyb3Raya".data q = false)
    (hnd2 : startsWithSeg (('/' :: repo) ++ "/Cyb3Raya/Cyb3Raya".data) q = false) :
    normalize_root_path (normCore q repo) repo = normCore q repo := by
  by_cases hgood : (q = ('/' :: repo) ∨ (('/' :: repo) ++ "/".data).isPrefixOf q = true)
  · rw [normCore_good hgood]
    cases hseg : startsWithSeg (('/' :: repo) ++ "/Cyb3Raya".data) q with
    | false =>
      rw [dedupRepo_not_fire_stripped hqs hseg]
      exact norm_fix_good hqs hext hgood hseg
    | true =>
      cases hA : (q == (('/' :: repo) ++ "/Cyb3Raya".data)) with
      | true =>
        have hqe : q = ('/' :: repo) ++ "/Cyb3Raya".data := beq_iff_eq.mp hA
        rw [hqe, dedupRepo_exact]
        obtain ⟨hrne, hrnos⟩ := repo_parts_of_good_shape (Z := [])
          (by rw [List.append_nil]; exact hqe) hqs hext
        have hgs : pyStrip ('/' :: repo) = '/' :: repo := strip_good hrepo
        have hge : is_external ('/' :: repo) = false := by
          rw [is_external_slash hgs]
          exact hrnos
        have h1 : "/".data.isPrefixOf (pyStrip ('/' :: repo)) = true := by
          rw [hgs]
          exact slash_pref_cons repo
        have h2 : is_external (pyStrip ('/' :: repo)) = false := by
          rw [hgs]
          exact hge
        rw [normalize_eq_core h1 h2, hgs, normCore_good (Or.inl rfl)]
        apply dedupRepo_not_fire
        left
        apply isPrefixOf_false_of_longer
        rw [List.length_append]
        have h9 : ("/Cyb3Raya".data).length = 9 := rfl
        omega
      | false =>
        have hB : ((('/' :: repo) ++ "/Cyb3Raya".data) ++ "/".data).isPrefixOf q = true := by
          have hsegT := hseg
          unfold startsWithSeg at hsegT
          rw [hA, Bool.false_or] at hsegT
          exact hsegT
        have hq2 : q = (('/' :: repo) ++ "/Cyb3Raya".data) ++ '/' ::
            List.drop ((('/' :: repo) ++ "/Cyb3Raya".data) ++ "/".data).length q := by
          conv_lhs => rw [isPrefixOf_eq_append hB]
          rw [List.append_assoc, show ("/".data : List Char) = ['/'] from rfl,
            List.singleton_append]
        obtain ⟨hrne, hrnos⟩ := repo_parts_of_good_shape
          (Z := '/' :: List.drop ((('/' :: repo) ++ "/Cyb3Raya".data) ++ "/".data).length q)
          (by
            conv_lhs => rw [hq2]
            rw [List.append_assoc]) hqs hext
        have hded : dedupRepo repo q = ('/' :: repo) ++ '/' ::
            List.drop ((('/' :: repo) ++ "/Cyb3Raya".data) ++ "/".data).length q := by
          conv_lhs => rw [hq2]
          exact dedupRepo_slash repo _
        rw [hded]
        apply fix_good_slash_w hqs hq2
        · exact ext_false_good_slash hqs hq2 hrne hrnos
        · cases hv : startsWithSeg (('/' :: repo) ++ "/Cyb3Raya".data)
              (('/' :: repo) ++ '/' ::
                List.drop ((('/' :: repo) ++ "/Cyb3Raya".data) ++ "/".data).length q) with
          | false => rfl
          | true =>
            exfalso
            have hviol := seg_violation (P := '/' :: repo) hq2 (seg_shift hv)
            rw [hnd2] at hviol
            exact Bool.noConfusion hviol
  · by_cases hleg : (q = "/Cyb3Raya".data ∨ "/Cyb3Raya/".data.isPrefixOf q = true)
    · rw [normCore_legacy hgood hleg]
      rcases hleg with hqe | hlp
      · have hd9 : List.drop 9 q = [] := by
          rw [hqe]
          rfl
        rw [if_pos hd9]
        by_cases hx : is_external (('/' :: repo) ++ "/".data) = true
        · refine normalize_external ?_
          rw [strip_good_slash repo]
          exact hx
        · apply norm_fix_good (strip_good_slash repo) (bool_eq_false hx)
          · right
            exact isPrefixOf_refl _
          · cases hv : startsWithSeg (('/' :: repo) ++ "/Cyb3Raya".data)
                (('/' :: repo) ++ "/".data) with
            | false => rfl
            | true =>
              exfalso
              have hv2 : startsWithSeg (('/' :: repo) ++ "/Cyb3Raya".data)
                  (('/' :: repo) ++ '/' :: []) = true := hv
              rcases seg_shift hv2 with hA2 | hB2
              · exact absurd hA2 (by decide)
              · exact absurd hB2 (by decide)
      · have hq4 : q = "/Cyb3Raya".data ++ '/' ::
            List.drop ("/Cyb3Raya/".data).length q := by
          conv_lhs => rw [isPrefixOf_eq_append hlp]
          rw [show ("/Cyb3Raya/".data : List Char) = "/Cyb3Raya".data ++ ['/'] from rfl,
            List.append_assoc, List.singleton_append]
        have hd9 : List.drop 9 q = '/' :: List.drop ("/Cyb3Raya/".data).length q := by
          conv_lhs => rw [hq4]
          rw [show (9 : Nat) = ("/Cyb3Raya".data).length from rfl]
          exact List.drop_left _ _
        rw [hd9, if_neg (fun hcon => List.noConfusion hcon)]
        by_cases hx : is_external (('/' :: repo) ++ '/' ::
            List.drop ("/Cyb3Raya/".data).length q) = true
        · refine normalize_external ?_
          rw [strip_good_slash_w (show q = ("/Cyb3Raya".data ++ ['/']) ++
              List.drop ("/Cyb3Raya/".data).length q from by
                conv_lhs => rw [hq4]
                rw [List.append_assoc, List.singleton_append]) hqs]
          exact hx
        · apply fix_good_slash_w hqs hq4 (bool_eq_false hx)
          cases hv : startsWithSeg (('/' :: repo) ++ "/Cyb3Raya".data)
              (('/' :: repo) ++ '/' :: List.drop ("/Cyb3Raya/".data).length q) with
          | false => rfl
          | true =>
            exfalso
            have hq2n : q = ([] ++ "/Cyb3Raya".data) ++ '/' ::
                List.drop ("/Cyb3Raya/".data).length q := by
              rw [List.nil_append]
              exact hq4
            have hviol := seg_violation (P := []) hq2n (seg_shift hv)
            rw [List.nil_append] at hviol
            rw [hnd1] at hviol
            exact Bool.noConfusion hviol
    · rw [normCore_default hgood hleg]
      obtain ⟨t, ht⟩ := (slash_pref_iff q).mp hroot
      rw [ht]
      by_cases hx : is_external (('/' :: repo) ++ '/' :: t) = true
      · refine normalize_external ?_
        rw [strip_good_slash_w (show q = ([] ++ ['/']) ++ t from by
            rw [List.nil_append, List.singleton_append]
            exact ht) hqs]
        exact hx
      · apply fix_good_slash_w hqs (show q = [] ++ '/' :: t from by
          rw [List.nil_append]
          exact ht) (bool_eq_false hx)
        cases hv : startsWithSeg (('/' :: repo) ++ "/Cyb3Raya".data)
            (('/' :: repo) ++ '/' :: t) with
        | false => rfl
        | true =>
          exfalso
          rcases seg_shift hv with hA2 | hB2
          · exact hleg (Or.inl (by rw [ht, hA2]))
          · exact hleg (Or.inr (by rw [ht]; exact hB2))

/-- C2 (counterexample): the classifier is not idempotent — the
root-absolute path `/Cyb3Raya/Cyb3Raya/x` maps to
`/Cyb3Raya-Blog/Cyb3Raya/x`, which a second application rewrites again to
`/Cyb3Raya-Blog/x` (the anchored dedup substitution strips one duplicated
legacy segment per application). -/
theorem claim_C2_counterexample :
    normalize_root_path
      (normalize_root_path "/Cyb3Raya/Cyb3Raya/x".data "Cyb3Raya-Blog".data)
      "Cyb3Raya-Blog".data ≠
    normalize_root_path "/Cyb3Raya/Cyb3Raya/x".data "Cyb3Raya-Blog".data := by
  decide

/-- C2 (amended): the classifier is idempotent for every path whose
trimmed form is root-absolute and does not begin with a doubled legacy
segment (neither `/Cyb3Raya/Cyb3Raya` at the start nor
`/<repo>/Cyb3Raya/Cyb3Raya` right after the repo prefix, each followed by
`/` or the end), provided the repo string carries no surrounding
whitespace. -/
theorem claim_C2_idempotent_amended :
    ∀ (p repo : List Char),
      pyStrip repo = repo →
      "/".data.isPrefixOf (pyStrip p) = true →
      startsWithSeg "/Cyb3Raya/Cyb3Raya".data (pyStrip p) = false →
      startsWithSeg (('/' :: repo) ++ "/Cyb3Raya/Cyb3Raya".data) (pyStrip p) = false →
      normalize_root_path (normalize_root_path p repo) repo =
        normalize_root_path p repo := by
  intro p repo hrepo hroot hnd1 hnd2
  by_cases hx : is_external (pyStrip p) = true
  · have hfp : normalize_root_path p repo = p := normalize_external hx
    rw [hfp]
    exact hfp
  · have hext : is_external (pyStrip p) = false := bool_eq_false hx
    have hfp : normalize_root_path p repo = normCore (pyStrip p) repo :=
      normalize_eq_core hroot hext
    rw [hfp]
    exact normCore_fix (pyStrip_idem p) hrepo hroot hext hnd1 hnd2

theorem claim_C2_witness :
    normalize_root_path
      (normalize_root_path "/Cyb3Raya/x".data "Cyb3Raya-Blog".data) "Cyb3Raya-Blog".data =
    normalize_root_path "/Cyb3Raya/x".data "Cyb3Raya-Blog".data :=
  claim_C2_idempotent_amended "/Cyb3Raya/x".data "Cyb3Raya-Blog".data (by decide) (by decide)
    (by decide) (by decide)

example : normalize_root_path "/CSS/a.css".data "Cyb3Raya-Blog".data =
    "/Cyb3Raya-Blog/CSS/a.css".data := by decide

example : normalize_root_path "/Cyb3Raya/HTML/b.html".data "Cyb3Raya-Blog".data =
    "/Cyb3Raya-Blog/HTML/b.html".data := by decide

example : normalize_root_path "/Cyb3Raya-Blog/Cyb3Raya/img.png".data "Cyb3Raya-Blog".data =
    "/Cyb3Raya-Blog/img.png".data := by decide

example : normalize_root_path "/Cyb3Raya-Blog/CSS/a.css".data "Cyb3Raya-Blog".data =
    "/Cyb3Raya-Blog/CSS/a.css".data := by decide

example : normalize_root_path "https://x.y/z".data "R".data = "https://x.y/z".data := by decide

example : normalize_root_path "/Cyb3Raya".data "R".data = "/R/".data := by decide

example : normalize_root_path "  /Cyb3Raya-Blog/x  ".data "Cyb3Raya-Blog".data =
    "/Cyb3Raya-Blog/x".data := by decide

example :
    normalize_root_path "/Cyb3Raya/Cyb3Raya/x".data "Cyb3Raya-Blog".data =
      "/Cyb3Raya-Blog/Cyb3Raya/x".data := by decide

example :
    normalize_root_path "/Cyb3Raya-Blog/Cyb3Raya/x".data "Cyb3Raya-Blog".data =
      "/Cyb3Raya-Blog/x".data := by decide

example : apply_replacements "href=\"/Cyb3Raya-Blog/CSS/x.css\"".data ["/Cyb3Raya-Blog/".data] =
    ("href=\"/CSS/x.css\"".data, 1) := by decide

example : apply_replacements "/a/a/x".data ["/a/".data] = ("/a/x".data, 1) := by decide

example : apply_replacements "/a/x".data ["/a/".data] = ("/x".data, 1) := by decide

example : apply_replacements "https://e.com/Cyb3Raya/x".data ["/Cyb3Raya/".data] =
    ("https://e.com/x".data, 1) := by decide

example : apply_replacements "ab".data ["".data, "a".data] = ("ab".data, 0) := by decide

example : apply_replacements "x/a/b".data ["a".data] = ("x/b".data, 1) := by decide

example : rewrite_text "<a href=\"/CSS/a.css\">".data "Cyb3Raya-Blog".data =
    ("<a href=\"/Cyb3Raya-Blog/CSS/a.css\">".data, 1) := by decide

example : rewrite_text "background: url(/CSS/bg.png)".data "Cyb3Raya-Blog".data =
    ("background: url(/Cyb3Raya-Blog/CSS/bg.png)".data, 1) := by decide

example : rewrite_text "xhref=\"/a\"".data "R".data = ("xhref=\"/a\"".data, 0) := by decide

example : rewrite_text "u: url( '/a' )".data "R".data = ("u: url( '/R/a' )".data, 1) := by decide

example : rewrite_text "SRC = '../x'".data "R".data = ("SRC = '../x'".data, 0) := by decide

example : rewrite_text "href=\"  /Cyb3Raya-Blog/x  \"".data "Cyb3Raya-Blog".data =
    ("href=\"/Cyb3Raya-Blog/x\"".data, 1) := by decide

example : rewrite_text "href=\"/Cyb3Raya/Cyb3Raya/x\"".data "Cyb3Raya-Blog".data =
    ("href=\"/Cyb3Raya-Blog/Cyb3Raya/x\"".data, 1) := by decide

example : rewrite_text "href=\"/Cyb3Raya-Blog/Cyb3Raya/x\"".data "Cyb3Raya-Blog".data =
    ("href=\"/Cyb3Raya-Blog/x\"".data, 1) := by decide

example : rewrite_text "href=\"#top\"".data "R".data = ("href=\"#top\"".data, 0) := by decide
